import Mathlib

/-!
Verification development for the EPS (earnings-per-share) extraction program
in `parser.py`.  The program reads HTML filings, locates financial-statement
tables, matches an ordered catalog of EPS terms, extracts and normalizes a
numeric token, ranks candidate matches (basic > other, GAAP > other), and
falls back to whole-text search when tables yield nothing.

Modelling conventions:
* HTML documents are modelled as token streams (`Tok`): open tags, close
  tags and text nodes.  Document order of the BeautifulSoup element chain
  corresponds to token order; a tag's subtree is the balanced token span
  after its open tag.
* Python `float` parsing is modelled as exact decimal parsing into a
  fraction `Frac` (integer numerator, power-of-ten denominator), and
  `"{:.2f}".format` as exact round-half-even to two fractional digits.
  (The source works with binary doubles; on the short decimal tokens the
  program consumes the exact-decimal model agrees.)
* Regular-expression search from the source is modelled by explicit
  scanning functions that follow the behaviour of the concrete patterns
  used in the source (`\b term \b` with `IGNORECASE`, and the numeric
  token pattern).
-/

/-- Characters treated as whitespace by Python `str.strip` / regex `\s`
(ASCII model). -/
def isPySpace (c : Char) : Bool :=
  c == ' ' || c == '\t' || c == '\n' || c == '\r' || c == '\x0b' || c == '\x0c'

/-- Python `str.strip()`: remove leading and trailing whitespace. -/
def trimChars (l : List Char) : List Char :=
  ((l.dropWhile isPySpace).reverse.dropWhile isPySpace).reverse

/-- Whether a character list begins with `'('` (models `text.startswith('(')`). -/
def startsParen (l : List Char) : Bool :=
  l.head? == some '('

/-- Whether a character list ends with `')'` (models `text.endswith(')')`). -/
def endsParen (l : List Char) : Bool :=
  l.getLast? == some ')'

/-- An exact decimal number: `num / den` with `den` a positive power of ten.
Models the value of a Python float parsed from a decimal token. -/
structure Frac where
  num : Int
  den : Nat
deriving Repr, DecidableEq

/-- The rational value of a parsed decimal (used in specification statements). -/
def fracVal (f : Frac) : ℚ :=
  (f.num : ℚ) / (f.den : ℚ)

/-- Accumulate a digit list into a natural number. -/
def digitsToNat : List Char → Nat → Nat
  | [], acc => acc
  | c :: r, acc => digitsToNat r (acc * 10 + (c.toNat - 48))

/-- Parse the body of a Python float literal: optional sign, digits,
optional fractional part, optional exponent.  Returns `none` exactly when
Python `float()` raises `ValueError` (ASCII decimal model; `inf`/`nan`
tokens are not modelled, the program rejects them through its range check
anyway). -/
def parseSign (l : List Char) : Bool × List Char :=
  (l.head? == some '-',
   if l.head? == some '+' || l.head? == some '-' then l.drop 1 else l)

/-- Optional exponent suffix of a float literal (after the mantissa):
empty input accepts the mantissa as is; `e`/`E` followed by a signed digit
string scales it; anything else is a parse failure. -/
def parseExpPart (num : Int) (den : Nat) (l3 : List Char) : Option Frac :=
  if l3.isEmpty then some ⟨num, den⟩
  else if l3.head? == some 'e' || l3.head? == some 'E' then
    let se := parseSign (l3.drop 1)
    let ed := se.2.takeWhile Char.isDigit
    let rest := se.2.dropWhile Char.isDigit
    if ed.isEmpty || !rest.isEmpty then none
    else if se.1 then some ⟨num, den * 10 ^ digitsToNat ed 0⟩
    else some ⟨num * Int.ofNat (10 ^ digitsToNat ed 0), den⟩
  else none

def parseFloatChars (l : List Char) : Option Frac :=
  let s := parseSign l
  let ip := s.2.takeWhile Char.isDigit
  let l2 := s.2.dropWhile Char.isDigit
  let hasDot := l2.head? == some '.'
  let fp := if hasDot then (l2.drop 1).takeWhile Char.isDigit else []
  let l3 := if hasDot then (l2.drop 1).dropWhile Char.isDigit else l2
  if ip.isEmpty && fp.isEmpty then none
  else
    let mnum : Int := Int.ofNat (digitsToNat ip 0 * 10 ^ fp.length + digitsToNat fp 0)
    parseExpPart (if s.1 then -mnum else mnum) (10 ^ fp.length) l3

/-- Python `float(s)`: strip whitespace, then parse the decimal literal. -/
def pyFloat (l : List Char) : Option Frac :=
  parseFloatChars (trimChars l)

/-- Digit characters. -/
def digitChar : Nat → Char
  | 0 => '0'
  | 1 => '1'
  | 2 => '2'
  | 3 => '3'
  | 4 => '4'
  | 5 => '5'
  | 6 => '6'
  | 7 => '7'
  | 8 => '8'
  | _ => '9'

/-- Decimal digits of `n` (most significant first), fuel-based so that it
reduces definitionally.  `fuel ≥ n` suffices. -/
def natDigitsF : Nat → Nat → List Char → List Char
  | 0, _, acc => acc
  | fuel + 1, n, acc => if n = 0 then acc else natDigitsF fuel (n / 10) (digitChar (n % 10) :: acc)

/-- Decimal rendering of a natural number. -/
def natRepr (n : Nat) : String :=
  if n = 0 then "0" else String.mk (natDigitsF n n [])

/-- Round-half-even of `n / d` (both natural, `d > 0` at call sites):
the integer Python's fixed-point formatting rounds to. -/
def rheNat (n d : Nat) : Nat :=
  let q := n / d
  let r := n % d
  if 2 * r < d then q
  else if d < 2 * r then q + 1
  else if q % 2 = 0 then q else q + 1

/-- Models Python `"{:.2f}".format(value)` for the exact decimal `f`:
round `|value| * 100` half-even, print sign, integer part, and exactly two
fractional digits. -/
def format2 (f : Frac) : String :=
  let m := rheNat (f.num.natAbs * 100) f.den
  (if f.num < 0 then "-" else "") ++ natRepr (m / 100) ++ "." ++
    String.mk [digitChar (m / 10 % 10), digitChar (m % 10)]

/-- Whether the parsed value lies in the inclusive range `[-25, 25]`
(`-25 <= value <= 25` in the source), expressed by cross-multiplication,
which is equivalent for a positive denominator. -/
def inRange25 (f : Frac) : Bool :=
  (-25 * (f.den : Int) ≤ f.num) && (f.num ≤ 25 * (f.den : Int))

/-- `extract_eps_value` from `parser.py`: trim the token; a parenthesized
token is negated with no `$`/`,` stripping; otherwise `$` and `,` are
removed and the token parsed; accept only values in `[-25, 25]`, formatted
to two fractional digits. -/
def extract_eps_value (text : String) : Option String :=
  let t := trimChars text.data
  if startsParen t && endsParen t then
    match pyFloat (t.drop 1).dropLast with
    | none => none
    | some f =>
      let value : Frac := ⟨-f.num, f.den⟩
      if inRange25 value then some (format2 value) else none
  else
    let t2 := (t.filter (fun c => c != '$')).filter (fun c => c != ',')
    match pyFloat t2 with
    | none => none
    | some value =>
      if inRange25 value then some (format2 value) else none


/-- Substring test on character lists (Python's `in` on strings). -/
def containsSub : List Char → List Char → Bool
  | [], pat => pat.isEmpty
  | c :: t, pat => pat.isPrefixOf (c :: t) || containsSub t pat

/-- Python `pat in s` for strings. -/
def containsStr (s pat : String) : Bool :=
  containsSub s.data pat.data

/-- Python `str.lower()` (ASCII model). -/
def lowerStr (s : String) : String :=
  String.mk (s.data.map Char.toLower)

/-- The ordered catalog of EPS synonyms (`eps_terms` in `parser.py`). -/
def eps_terms : List String :=
  [ "earnings per basic share", "basic earnings per share",
    "earnings per common share - basic", "earnings per share - basic",
    "basic earnings per common share", "earnings per common share",
    "earnings per share", "eps",
    "basic income per share", "basic net income per share",
    "net income per share - basic", "net income per common share - basic",
    "income per common share", "net income per common share", "income per share",
    "net income per share",
    "basic profit per share", "profit per share",
    "basic loss per share", "basic net loss per share",
    "net loss per common share - basic", "loss per share", "net loss per share",
    "net loss per common share", "basic and diluted loss per share",
    "earnings (loss) per basic share", "earnings (loss) per share",
    "earnings (loss) per common share", "net income (loss) per share",
    "net income (loss) per common share",
    "earnings per share attributable to common stockholders",
    "net income attributable to common stockholders per common share",
    "net income per share available to common stockholders" ]

/-- Statement-header phrases (`table_headers` in `parser.py`). -/
def table_headers : List String :=
  [ "consolidated statements of operations",
    "consolidated statements of income",
    "consolidated statements of comprehensive income",
    "condensed consolidated statements of operations" ]

/-- Broader fallback catalog (`fallback_terms` in `parser.py`). -/
def fallback_terms : List String :=
  [ "per share", "per basic share", "per common share", "per diluted share", "per common stock" ]

/-- Tag names whose text is checked for a statement-header phrase
(the lambda in `soup.find_all` restricts to these). -/
def header_tag_names : List String :=
  [ "p", "b", "strong", "div" ]

/-- HTML document token: open tag, close tag, or text.  A parsed document
is a token list; BeautifulSoup's element chain (document order) is token
order, and a tag's subtree is the balanced span after its open token. -/
inductive Tok where
  | openTag (name : String) : Tok
  | closeTag : Tok
  | str (s : String) : Tok
deriving Repr, DecidableEq

/-- Balanced prefix of a token list: stop at the close tag matching depth
zero.  `takeBal 0 l` is the subtree content of a tag whose open token
immediately precedes `l`. -/
def takeBal : Nat → List Tok → List Tok
  | _, [] => []
  | d, Tok.openTag n :: rest => Tok.openTag n :: takeBal (d + 1) rest
  | d, Tok.closeTag :: rest =>
    if d = 0 then [] else Tok.closeTag :: takeBal (d - 1) rest
  | d, Tok.str s :: rest => Tok.str s :: takeBal d rest

/-- Concatenation of all text in a token list (BeautifulSoup `get_text()`). -/
def concatStrs : List Tok → String
  | [] => ""
  | Tok.str s :: r => s ++ concatStrs r
  | _ :: r => concatStrs r

/-- Positions and names of all open tags, in document order. -/
def tagPositionsAux : List Tok → Nat → List (Nat × String)
  | [], _ => []
  | Tok.openTag n :: r, i => (i, n) :: tagPositionsAux r (i + 1)
  | _ :: r, i => tagPositionsAux r (i + 1)

/-- All tag nodes of a document with their token positions (models
iterating `soup.find_all` results in document order). -/
def tagPositions (doc : List Tok) : List (Nat × String) :=
  tagPositionsAux doc 0

/-- Subtree token list of the tag whose open token is at position `i`. -/
def subtreeAfter (doc : List Tok) (i : Nat) : List Tok :=
  takeBal 0 (doc.drop (i + 1))

/-- `tag.get_text()` for the tag at position `i`. -/
def tagText (doc : List Tok) (i : Nat) : String :=
  concatStrs (subtreeAfter doc i)

/-- First open tag named `"table"` in a token list, with its offset
(helper for `find_next('table')`). -/
def findTableFrom : List Tok → Nat → Option Nat
  | [], _ => none
  | Tok.openTag n :: rest, i =>
    if n = "table" then some i else findTableFrom rest (i + 1)
  | _ :: rest, i => findTableFrom rest (i + 1)

/-- `header.find_next('table')`: position of the nearest following
`table` open tag, in document order, strictly after position `i`. -/
def findTableAfter (doc : List Tok) (i : Nat) : Option Nat :=
  (findTableFrom (doc.drop (i + 1)) 0).map (fun j => i + 1 + j)

/-- The table locator (`parser.py` lines 89-97): for each header phrase,
every `p`/`b`/`strong`/`div` tag whose lower-cased text contains the
phrase contributes the nearest following table (if any).  Result: list of
table open-tag positions in the order the source appends them. -/
def target_tables (doc : List Tok) : List Nat :=
  table_headers.flatMap (fun ph =>
    (tagPositions doc).filterMap (fun p =>
      if header_tag_names.contains p.2 && containsStr (lowerStr (tagText doc p.1)) ph then
        findTableAfter doc p.1
      else none))

/-- Rows of a table (`table.find_all('tr')`), each given by its subtree. -/
def findTrs (sub : List Tok) : List (List Tok) :=
  (tagPositions sub).filterMap (fun p =>
    if p.2 == "tr" then some (subtreeAfter sub p.1) else none)

/-- Cells of a row (`row.find_all(['td', 'th'])`), in document order. -/
def findCells (row : List Tok) : List (List Tok) :=
  (tagPositions row).filterMap (fun p =>
    if p.2 == "td" || p.2 == "th" then some (subtreeAfter row p.1) else none)

/-- Candidate match record (`found_values` entries in `parser.py`). -/
structure Candidate where
  value : String
  term : String
  is_basic : Bool
  is_gaap : Bool
deriving Repr, DecidableEq

/-- Python `value.startswith('-')`. -/
def startsDash (v : String) : Bool :=
  match v.data with
  | '-' :: _ => true
  | _ => false

/-- Lower-cased text of a row. -/
def rowText (row : List Tok) : String :=
  lowerStr (concatStrs row)

/-- `extract_eps_value(cell.get_text().strip())` for a cell subtree
(`extract_eps_value` strips again, so passing the raw text is identical). -/
def cellValue (cell : List Tok) : Option String :=
  extract_eps_value (concatStrs cell)

/-- Build the candidate recorded for an extracted value: basic/GAAP flags
from the row's lower-cased text, and the loss sign flip (`parser.py`
lines 120-125 and 140-147). -/
def mkCandidate (rtLower : String) (term v : String) : Candidate :=
  let is_basic := containsStr rtLower "basic"
  let is_gaap := containsStr rtLower "gaap" || containsStr rtLower "unadjusted"
  let is_loss := containsStr rtLower "loss" || containsStr rtLower "net loss"
  { value := if is_loss && !startsDash v then "-" ++ v else v,
    term := term, is_basic := is_basic, is_gaap := is_gaap }

/-- Subsection lookahead (`parser.py` lines 130-152): first row of the
given lookahead window containing an extractable cell value, recorded
under the originally matched `term` with flags from that row's own text. -/
def lookahead4 : List (List Tok) → String → Option Candidate
  | [], _ => none
  | r :: rs, term =>
    match (findCells r).findSome? cellValue with
    | some v => some (mkCandidate (rowText r) term v)
    | none => lookahead4 rs term

/-- Table-mode row scan (`parser.py` lines 103-152): for each row, the
first catalog term contained in the row text is the matched term; the
first extractable cell value in the row (or, failing that, in the next
four rows) yields one candidate. -/
def scanRows : List (List Tok) → List Candidate
  | [] => []
  | row :: rest =>
    (match eps_terms.find? (fun term => containsStr (rowText row) term) with
     | none => []
     | some term =>
       match (findCells row).findSome? cellValue with
       | some v => [mkCandidate (rowText row) term v]
       | none =>
         match lookahead4 (rest.take 4) term with
         | some c => [c]
         | none => []) ++ scanRows rest

/-- All candidates collected from the targeted tables (`found_values`). -/
def found_values (doc : List Tok) : List Candidate :=
  (target_tables doc).flatMap (fun ti => scanRows (findTrs (subtreeAfter doc ti)))

/-- The result ranker (`parser.py` lines 155-161): keep basic candidates
if any, then GAAP candidates if any, and return the first survivor. -/
def rank (l : List Candidate) : Option Candidate :=
  match l with
  | [] => none
  | _ :: _ =>
    let l1 := if l.any (fun c => c.is_basic) then l.filter (fun c => c.is_basic) else l
    let l2 := if l1.any (fun c => c.is_gaap) then l1.filter (fun c => c.is_gaap) else l1
    l2.head?

/-- Regex `\w` (ASCII model): alphanumeric or underscore. -/
def isWordChar (c : Char) : Bool :=
  c.isAlphanum || c == '_'

/-- Whether position `i` of `text` holds a word character (out of range
counts as a non-word position). -/
def isWordAt (text : List Char) (i : Nat) : Bool :=
  isWordChar (text.getD i '\x00')

/-- Regex `\b` at gap position `i`: exactly one of the two neighbouring
positions holds a word character. -/
def boundaryAt (text : List Char) (i : Nat) : Bool :=
  (if i = 0 then false else isWordAt text (i - 1)) != isWordAt text i

/-- Case-insensitive prefix match of a (lower-case) pattern. -/
def ciMatch : List Char → List Char → Bool
  | [], _ => true
  | _ :: _, [] => false
  | p :: ps, c :: cs => (p.toLower == c.toLower) && ciMatch ps cs

/-- Positions produced by `re.finditer(term, text, re.IGNORECASE)` for a
plain (meta-character-free) term: left-to-right, non-overlapping
substring matches.  Fuel-based (`fuel ≥ length of the remaining text`). -/
def subOccsF : Nat → List Char → List Char → Nat → List Nat
  | 0, _, _, _ => []
  | fuel + 1, t, pat, pos =>
    match t with
    | [] => []
    | _ :: rest =>
      if ciMatch pat t then
        pos :: subOccsF fuel (t.drop pat.length) pat (pos + pat.length)
      else subOccsF fuel rest pat (pos + 1)

/-- All match positions of a nonempty plain pattern, case-insensitively,
non-overlapping from the left (fallback 2's scanning). -/
def subOccs (text pat : List Char) : List Nat :=
  if pat.isEmpty then [] else subOccsF text.length text pat 0

/-- Positions produced by `re.finditer(r'\b' + re.escape(term) + r'\b',
text, re.IGNORECASE)`: substring matches that additionally sit on word
boundaries on both sides. -/
def wordOccsF : Nat → List Char → List Char → List Char → Nat → List Nat
  | 0, _, _, _, _ => []
  | fuel + 1, orig, t, pat, pos =>
    match t with
    | [] => []
    | _ :: rest =>
      if ciMatch pat t && boundaryAt orig pos && boundaryAt orig (pos + pat.length) then
        pos :: wordOccsF fuel orig (t.drop pat.length) pat (pos + pat.length)
      else wordOccsF fuel orig rest pat (pos + 1)

/-- All whole-word match positions of a nonempty pattern (fallback 1's
scanning). -/
def wordOccs (text pat : List Char) : List Nat :=
  if pat.isEmpty then [] else wordOccsF text.length text text pat 0

/-- Consume one given character if present (a greedy optional literal in
the numeric regex). -/
def takeIf (c : Char) (l : List Char) : List Char × List Char :=
  match l with
  | x :: r => if x == c then ([x], r) else ([], l)
  | [] => ([], [])

/-- Greedy `\d{1,3}`. -/
def takeUpTo3 (l : List Char) : List Char × List Char :=
  let ds := (l.takeWhile Char.isDigit).take 3
  (ds, l.drop ds.length)

/-- Greedy `(,\d{3})*`. -/
def commaGroups : List Char → List Char × List Char
  | ',' :: a :: b :: c :: r =>
    if a.isDigit && b.isDigit && c.isDigit then
      let g := commaGroups r
      (',' :: a :: b :: c :: g.1, g.2)
    else ([], ',' :: a :: b :: c :: r)
  | l => ([], l)

/-- Greedy `(\.\d{1,2})?`. -/
def fracPart : List Char → List Char × List Char
  | '.' :: r =>
    let ds := (r.takeWhile Char.isDigit).take 2
    if ds.isEmpty then ([], '.' :: r) else ('.' :: ds, r.drop ds.length)
  | l => ([], l)

/-- Match of the numeric-token regex
`\(?\s*\$?\s*(\d{1,3}(,\d{3})*|\d+)(\.\d{1,2})?\s*\)?` anchored at the
head of `l`; returns `group(0)`.  All parts around the digit group are
optional and the remainder of the pattern can always match empty, so the
greedy scan needs no backtracking and succeeds exactly when a digit is
reached. -/
def matchNumberAt (l : List Char) : Option (List Char) :=
  let p1 := takeIf '(' l
  let s1 := p1.2.span isPySpace
  let d1 := takeIf '$' s1.2
  let s2 := d1.2.span isPySpace
  let ds := takeUpTo3 s2.2
  if ds.1.isEmpty then none
  else
    let cg := commaGroups ds.2
    let fr := fracPart cg.2
    let s3 := fr.2.span isPySpace
    let p2 := takeIf ')' s3.2
    some (p1.1 ++ s1.1 ++ d1.1 ++ s2.1 ++ ds.1 ++ cg.1 ++ fr.1 ++ s3.1 ++ p2.1)

/-- `re.search` of the numeric-token regex: leftmost match. -/
def searchNumber : List Char → Option (List Char)
  | [] => none
  | c :: t =>
    match matchNumberAt (c :: t) with
    | some m => some m
    | none => searchNumber t

/-- Extract a plausible value from the window of `win` characters
starting at position `e` (the code slices
`all_text[match.end() : match.end() + win]`, searches it for a numeric
token, and runs `extract_eps_value` on the match). -/
def windowValue (text : List Char) (e win : Nat) : Option String :=
  match searchNumber ((text.drop e).take win) with
  | some m => extract_eps_value (String.mk m)
  | none => none

/-- Fallback search 1 (`parser.py` lines 164-183): for each specific term
in catalog order, for each whole-word occurrence, return the first
plausible value in the 100-character trailing window. -/
def fallback1 (text : List Char) : Option (String × String) :=
  eps_terms.findSome? (fun term =>
    (wordOccs text term.data).findSome? (fun i =>
      (windowValue text (i + term.data.length) 100).map (fun v => (v, term))))

/-- Fallback search 2 (`parser.py` lines 186-197): the broader catalog,
matched as plain substrings (no word boundaries), 50-character window. -/
def fallback2 (text : List Char) : Option (String × String) :=
  fallback_terms.findSome? (fun term =>
    (subOccs text term.data).findSome? (fun i =>
      (windowValue text (i + term.data.length) 50).map (fun v => (v, term))))

/-- Core of `find_eps_in_file` after the document is parsed: table mode
with ranking, else fallback 1, else fallback 2, else no result. -/
def find_eps_core (doc : List Tok) : Option String × Option String :=
  match rank (found_values doc) with
  | some best => (some best.value, some best.term)
  | none =>
    let all_text := (concatStrs doc).data
    match fallback1 all_text with
    | some r => (some r.1, some r.2)
    | none =>
      match fallback2 all_text with
      | some r => (some r.1, some r.2)
      | none => (none, none)

/-- `find_eps_in_file`: a file that fails to read or parse (the
`except` path) yields `(None, None)`; otherwise the core search runs. -/
def find_eps_in_file (file : Option (List Tok)) : Option String × Option String :=
  match file with
  | none => (none, none)
  | some doc => find_eps_core doc

/-- One CSV row produced by `process_directory`. -/
structure OutRecord where
  filename : String
  EPS : String
  EPS_Term : String
deriving Repr, DecidableEq

/-- Python `filename.endswith(suffix)`. -/
def endsWithStr (s suffix : String) : Bool :=
  suffix.data.isSuffixOf s.data

/-- `process_directory`: every `.html` entry of the directory produces
exactly one record, with `NONE` markers for absent results. -/
def process_directory (files : List (String × Option (List Tok))) : List OutRecord :=
  (files.filter (fun f => endsWithStr f.1 ".html")).map (fun f =>
    let r := find_eps_in_file f.2
    { filename := f.1,
      EPS := (r.1).getD "NONE",
      EPS_Term := (r.2).getD "NONE" })

/-- A small document: a statement header followed by a table whose row
holds a basic-EPS value. -/
def docTable : List Tok :=
  [ Tok.openTag "p", Tok.str "Consolidated Statements of Operations", Tok.closeTag,
    Tok.openTag "table",
    Tok.openTag "tr", Tok.str "Basic earnings per share",
    Tok.openTag "td", Tok.str "1.50", Tok.closeTag, Tok.closeTag,
    Tok.closeTag ]

/-- A document with no tables, exercising fallback search 1. -/
def docText : List Tok :=
  [ Tok.str "Diluted EPS was $0.45 for the quarter" ]

/-- A document whose only catalog hit is a non-whole-word substring
occurrence of `"per share"` (inside `"per shareholder"`). -/
def docSubstr : List Tok :=
  [ Tok.str "Distribution per shareholder was 1.23" ]


/-- Core shape of a two-fractional-digit decimal string: one or more
digits, a point, exactly two digits. -/
def twoDecCore (l : List Char) : Bool :=
  let ds := l.takeWhile Char.isDigit
  let rest := l.dropWhile Char.isDigit
  !ds.isEmpty &&
    (match rest with
     | ['.', a, b] => a.isDigit && b.isDigit
     | _ => false)

/-- A decimal string with exactly two fractional digits, optionally
`'-'`-prefixed (the output format the specification promises). -/
def isTwoDec (s : String) : Bool :=
  twoDecCore (if startsDash s then s.data.drop 1 else s.data)

/-- Follows the claim's words (ranking): a candidate survives if it is
basic whenever any candidate is basic, and GAAP whenever any of the
remaining (basic-filtered) candidates is GAAP. -/
def survivesRanking (l : List Candidate) (c : Candidate) : Bool :=
  (!l.any (fun x => x.is_basic) || c.is_basic) &&
    (!(if l.any (fun x => x.is_basic) then l.filter (fun x => x.is_basic) else l).any
        (fun x => x.is_gaap) || c.is_gaap)

/-- Modelled from the spec: fallback search 2 as the claim describes it,
with whole-word (word-boundary) matching instead of the plain substring
matching the source performs. -/
def fallback2WholeWord (text : List Char) : Option (String × String) :=
  fallback_terms.findSome? (fun term =>
    (wordOccs text term.data).findSome? (fun i =>
      (windowValue text (i + term.data.length) 50).map (fun v => (v, term))))

/-- Modelled from the spec: the table locator as the claim describes it,
considering every tag node whose lower-cased text contains a header
phrase, with no restriction on the tag's name. -/
def target_tables_all_tags (doc : List Tok) : List Nat :=
  table_headers.flatMap (fun ph =>
    (tagPositions doc).filterMap (fun p =>
      if containsStr (lowerStr (tagText doc p.1)) ph then
        findTableAfter doc p.1
      else none))

/-- A document whose statement header sits in a `span` tag: the source's
locator ignores it, the claim's "every tag node" reading would not. -/
def docSpan : List Tok :=
  [ Tok.openTag "span", Tok.str "Consolidated Statements of Operations", Tok.closeTag,
    Tok.openTag "table", Tok.closeTag ]



/-- A table row whose text holds a term, the substring `"loss"`, and an
unsigned value cell. -/
def rowC5 : List Tok :=
  [ Tok.str "basic earnings per share loss", Tok.openTag "td", Tok.str "1.50", Tok.closeTag ]

/-- A row matching a term but containing no extractable cell. -/
def rowTermOnly : List Tok :=
  [ Tok.str "basic earnings per share" ]

/-- A term-free row holding an extractable value cell. -/
def rowValueOnly : List Tok :=
  [ Tok.openTag "td", Tok.str "0.75", Tok.closeTag ]

example : extract_eps_value "1.23" = some "1.23" := by decide
example : extract_eps_value "(1.23)" = some "-1.23" := by decide
example : extract_eps_value "$1,234.5" = none := by decide
example : extract_eps_value "2020" = none := by decide
example : extract_eps_value " (0.05) " = some "-0.05" := by decide
example : extract_eps_value "($1.23)" = none := by decide
example : extract_eps_value "abc" = none := by decide
example : extract_eps_value "25.00" = some "25.00" := by decide
example : extract_eps_value "-25.005" = none := by decide

example : target_tables docTable = [3] := by decide
example : found_values docTable =
    [⟨"1.50", "basic earnings per share", true, false⟩] := by decide
example : find_eps_core docTable =
    (some "1.50", some "basic earnings per share") := by decide
example : find_eps_core docText = (some "0.45", some "eps") := by decide
example : fallback1 (concatStrs docSubstr).data = none := by decide
example : find_eps_core docSubstr = (some "1.23", some "per share") := by decide
example : process_directory
    [("a.html", none), ("b.txt", some docText), ("c.html", some docText)] =
    [ { filename := "a.html", EPS := "NONE", EPS_Term := "NONE" },
      { filename := "c.html", EPS := "0.45", EPS_Term := "eps" } ] := by decide

example : target_tables docSpan = [] := by decide
example : target_tables_all_tags docSpan = [3] := by decide
example : fallback2 (concatStrs docSubstr).data = some ("1.23", "per share") := by decide
example : fallback2WholeWord (concatStrs docSubstr).data = none := by decide

theorem findSome_exists {α β : Type} (f : α → Option β) :
    ∀ (l : List α) (b : β), l.findSome? f = some b → ∃ a ∈ l, f a = some b := by
  intro l
  induction l with
  | nil => intro b h; simp [List.findSome?] at h
  | cons a t ih =>
    intro b h
    rw [List.findSome?_cons] at h
    cases hfa : f a with
    | some c =>
      rw [hfa] at h
      simp only [] at h
      exact ⟨a, List.mem_cons_self a t, by rw [hfa, h]⟩
    | none =>
      rw [hfa] at h
      obtain ⟨x, hx, hfx⟩ := ih b h
      exact ⟨x, List.mem_cons_of_mem a hx, hfx⟩

theorem head_of_filter {α : Type} (p : α → Bool) :
    ∀ l : List α, (l.filter p).head? = l.find? p := by
  intro l
  induction l with
  | nil => rfl
  | cons a t ih =>
    by_cases h : p a = true
    · simp [List.filter_cons, List.find?_cons, h]
    · simp only [List.filter_cons, List.find?_cons, h, if_neg, Bool.false_eq_true,
        ite_false] at *
      exact ih

theorem find?_ext {α : Type} (p q : α → Bool) (h : ∀ a, p a = q a) :
    ∀ l : List α, l.find? p = l.find? q := by
  intro l
  induction l with
  | nil => rfl
  | cons a t ih => simp [List.find?_cons, h a, ih]

theorem head_of_filter_filter {α : Type} (p q : α → Bool) :
    ∀ l : List α, (((l.filter p).filter q)).head? = l.find? (fun a => p a && q a) := by
  intro l
  induction l with
  | nil => rfl
  | cons a t ih =>
    by_cases hp : p a = true <;> by_cases hq : q a = true <;>
      simp [List.filter_cons, List.find?_cons, hp, hq, ih] <;>
      exact find?_ext _ _ (fun x => Bool.and_comm (q x) (p x)) t

theorem filter_ne_nil_of_any {α : Type} (p : α → Bool) (l : List α) (h : l.any p = true) :
    l.filter p ≠ [] := by
  obtain ⟨a, ha, hpa⟩ := List.any_eq_true.mp h
  exact List.ne_nil_of_mem (List.mem_filter.mpr ⟨ha, hpa⟩)

theorem mem_of_head?_eq {α : Type} {l : List α} {a : α} (h : l.head? = some a) : a ∈ l := by
  cases l with
  | nil => simp at h
  | cons b t =>
    simp only [List.head?_cons, Option.some.injEq] at h
    rw [← h]
    exact List.mem_cons_self b t

theorem rank_mem {l : List Candidate} {c : Candidate} (h : rank l = some c) : c ∈ l := by
  cases l with
  | nil => simp [rank] at h
  | cons a t =>
    simp only [rank] at h
    split at h
    · split at h
      · exact List.mem_of_mem_filter (List.mem_of_mem_filter (mem_of_head?_eq h))
      · exact List.mem_of_mem_filter (mem_of_head?_eq h)
    · split at h
      · exact List.mem_of_mem_filter (mem_of_head?_eq h)
      · exact mem_of_head?_eq h

theorem rank_isSome {l : List Candidate} (h : l ≠ []) : ∃ c, rank l = some c := by
  cases l with
  | nil => exact absurd rfl h
  | cons a t =>
    simp only [rank]
    split
    · split
      · rename_i hb hg
        obtain ⟨c, cs, hcc⟩ := List.exists_cons_of_ne_nil (filter_ne_nil_of_any _ _ hg)
        exact ⟨c, by rw [hcc]; rfl⟩
      · rename_i hb hg
        obtain ⟨c, cs, hcc⟩ := List.exists_cons_of_ne_nil (filter_ne_nil_of_any _ _ hb)
        exact ⟨c, by rw [hcc]; rfl⟩
    · split
      · rename_i hb hg
        obtain ⟨c, cs, hcc⟩ := List.exists_cons_of_ne_nil (filter_ne_nil_of_any _ _ hg)
        exact ⟨c, by rw [hcc]; rfl⟩
      · exact ⟨a, rfl⟩

theorem find?_all_true {α : Type} (l : List α) : l.find? (fun _ => true) = l.head? := by
  cases l <;> rfl

theorem rank_eq_find (l : List Candidate) :
    rank l = l.find? (survivesRanking l) := by
  cases l with
  | nil => rfl
  | cons a t =>
    by_cases hb : (a :: t).any (fun x => x.is_basic) = true
    · by_cases hg : ((a :: t).filter (fun x => x.is_basic)).any (fun x => x.is_gaap) = true
      · have hsr : ∀ c : Candidate, survivesRanking (a :: t) c = (c.is_basic && c.is_gaap) := by
          intro c; simp [survivesRanking, hb, hg]
        rw [find?_ext (survivesRanking (a :: t)) (fun c => c.is_basic && c.is_gaap) hsr (a :: t)]
        rw [← head_of_filter_filter (fun c => c.is_basic) (fun c => c.is_gaap) (a :: t)]
        simp only [rank, hb, hg, if_true]
      · rw [Bool.not_eq_true] at hg
        have hsr : ∀ c : Candidate, survivesRanking (a :: t) c = c.is_basic := by
          intro c; simp [survivesRanking, hb, hg]
        rw [find?_ext (survivesRanking (a :: t)) (fun c => c.is_basic) hsr (a :: t)]
        rw [← head_of_filter (fun c => c.is_basic) (a :: t)]
        simp only [rank, hb, hg, if_true, Bool.false_eq_true, if_false]
    · rw [Bool.not_eq_true] at hb
      by_cases hg : ((a :: t)).any (fun x => x.is_gaap) = true
      · have hsr : ∀ c : Candidate, survivesRanking (a :: t) c = c.is_gaap := by
          intro c; simp [survivesRanking, hb, hg]
        rw [find?_ext (survivesRanking (a :: t)) (fun c => c.is_gaap) hsr (a :: t)]
        rw [← head_of_filter (fun c => c.is_gaap) (a :: t)]
        simp only [rank, hb, hg, if_true, Bool.false_eq_true, if_false]
      · rw [Bool.not_eq_true] at hg
        have hsr : ∀ c : Candidate, survivesRanking (a :: t) c = true := by
          intro c; simp [survivesRanking, hb, hg]
        rw [find?_ext (survivesRanking (a :: t)) (fun _ => true) hsr (a :: t)]
        rw [find?_all_true]
        simp only [rank, hb, hg, Bool.false_eq_true, if_false]

/-- C3: for every list of table-mode candidates the ranker first keeps the
basic-flagged candidates when any is basic, then among the remainder keeps
the GAAP-flagged ones when any is GAAP, and returns the first surviving
candidate in original discovery order; on the spec's example the basic
candidate (value `2.0`) wins over the earlier non-basic one. -/
theorem rank_first_surviving :
    (∀ l : List Candidate, rank l = l.find? (survivesRanking l)) ∧
    rank [⟨"1.0", "earnings per share", false, false⟩,
          ⟨"2.0", "earnings per share", true, false⟩] =
      some ⟨"2.0", "earnings per share", true, false⟩ :=
  ⟨rank_eq_find, by decide⟩

/-- C4: search-mode precedence is strict: a non-empty table-mode candidate
list is resolved by the ranker and neither fallback runs; fallback 1 is
consulted only when table mode yields nothing; fallback 2 only when
fallback 1 also yields nothing. -/
theorem mode_precedence (doc : List Tok) :
    (found_values doc ≠ [] →
       ∃ best, rank (found_values doc) = some best ∧
         find_eps_core doc = (some best.value, some best.term)) ∧
    (found_values doc = [] →
       ∀ v t, fallback1 (concatStrs doc).data = some (v, t) →
         find_eps_core doc = (some v, some t)) ∧
    (found_values doc = [] → fallback1 (concatStrs doc).data = none →
       ∀ v t, fallback2 (concatStrs doc).data = some (v, t) →
         find_eps_core doc = (some v, some t)) ∧
    (found_values doc = [] → fallback1 (concatStrs doc).data = none →
       fallback2 (concatStrs doc).data = none →
       find_eps_core doc = (none, none)) := by
  refine ⟨?_, ?_, ?_, ?_⟩
  · intro h
    obtain ⟨best, hbest⟩ := rank_isSome h
    exact ⟨best, hbest, by simp only [find_eps_core, hbest]⟩
  · intro h v t hf
    simp only [find_eps_core, h, rank, hf]
  · intro h hf1 v t hf2
    simp only [find_eps_core, h, rank, hf1, hf2]
  · intro h hf1 hf2
    simp only [find_eps_core, h, rank, hf1, hf2]

/-- C4 witness: a document with no candidate tables is resolved by
fallback 1. -/
theorem mode_precedence_witness :
    find_eps_core docText = (some "0.45", some "eps") :=
  (mode_precedence docText).2.1 (by decide) "0.45" "eps" (by decide)


/-- C5: in table mode a value extracted from a row whose lower-cased text
contains `"loss"` is negated unless it already starts with `'-'`, and is
kept unchanged otherwise; a row with term `"basic earnings per share"`,
cell `"1.50"` and `"loss"` in its text records `-1.50`. -/
theorem loss_sign_flip (rt term v : String) :
    (containsStr rt "loss" = true → startsDash v = false →
       (mkCandidate rt term v).value = "-" ++ v) ∧
    (containsStr rt "loss" = false → containsStr rt "net loss" = false →
       (mkCandidate rt term v).value = v) ∧
    (startsDash v = true → (mkCandidate rt term v).value = v) ∧
    scanRows [rowC5] = [⟨"-1.50", "basic earnings per share", true, false⟩] := by
  refine ⟨?_, ?_, ?_, by decide⟩
  · intro h1 h2; simp [mkCandidate, h1, h2]
  · intro h1 h2; simp [mkCandidate, h1, h2]
  · intro h1; simp [mkCandidate, h1]

/-- C5 witness: concrete instance of the sign flip. -/
theorem loss_sign_flip_witness :
    (mkCandidate "net loss per share" "net loss per share" "1.50").value = "-" ++ "1.50" :=
  (loss_sign_flip "net loss per share" "net loss per share" "1.50").1 (by decide) (by decide)

/-- C6: when a term-matching row has no extractable cell, the matcher
scans at most the next four rows, takes the first extractable cell value
found there, records it under the originally matched term, and derives
flags and sign from the looked-ahead row's own text (`mkCandidate` applied
to that row's text). -/
theorem lookahead_subsections :
    (∀ (rows : List (List Tok)) (term : String),
       lookahead4 rows term =
         (rows.findSome? (fun r =>
            ((findCells r).findSome? cellValue).map (fun v => (r, v)))).map
           (fun p => mkCandidate (rowText p.1) term p.2)) ∧
    (∀ (row : List Tok) (rest : List (List Tok)) (term : String),
       eps_terms.find? (fun t => containsStr (rowText row) t) = some term →
       (findCells row).findSome? cellValue = none →
       scanRows (row :: rest) =
         (lookahead4 (rest.take 4) term).toList ++ scanRows rest) := by
  constructor
  · intro rows term
    induction rows with
    | nil => rfl
    | cons r rs ih =>
      cases hv : (findCells r).findSome? cellValue with
      | some v =>
        simp only [lookahead4, List.findSome?_cons, hv, Option.map_some']
      | none =>
        simp only [lookahead4, List.findSome?_cons, hv, Option.map_none']
        exact ih
  · intro row rest term hterm hv
    simp only [scanRows, hterm, hv]
    cases hl : lookahead4 (rest.take 4) term <;> simp [hl, Option.toList]

/-- C6 witness: the value `0.75` from the following row is recorded under
the term matched one row earlier, with that row's own flags. -/
theorem lookahead_subsections_witness :
    scanRows [rowTermOnly, rowValueOnly] =
      (lookahead4 ([rowValueOnly].take 4) "basic earnings per share").toList ++
        scanRows [rowValueOnly] :=
  lookahead_subsections.2 rowTermOnly [rowValueOnly] "basic earnings per share"
    (by decide) (by decide)

theorem drop_pos_add (text : List Char) (pos k : Nat) :
    text.drop (pos + k) = (text.drop pos).drop k := by
  rw [List.drop_drop, Nat.add_comm]

theorem subOccsF_sound (pat : List Char) :
    ∀ (fuel : Nat) (t : List Char) (pos : Nat) (text : List Char),
      t = text.drop pos →
      ∀ i ∈ subOccsF fuel t pat pos, pos ≤ i ∧ ciMatch pat (text.drop i) = true := by
  intro fuel
  induction fuel with
  | zero => intro t pos text ht i hi; simp [subOccsF] at hi
  | succ fuel ih =>
    intro t pos text ht i hi
    cases t with
    | nil => simp [subOccsF] at hi
    | cons c rest =>
      simp only [subOccsF] at hi
      by_cases hm : ciMatch pat (c :: rest) = true
      · rw [if_pos hm] at hi
        rcases List.mem_cons.mp hi with hme | hme
        · subst hme
          exact ⟨Nat.le_refl _, by rw [← ht]; exact hm⟩
        · have ht' : (c :: rest).drop pat.length = text.drop (pos + pat.length) := by
            rw [drop_pos_add, ← ht]
          obtain ⟨h1, h2⟩ := ih _ _ text ht' i hme
          exact ⟨Nat.le_trans (Nat.le_add_right _ _) h1, h2⟩
      · rw [if_neg hm] at hi
        have ht' : rest = text.drop (pos + 1) := by
          rw [drop_pos_add, ← ht]; rfl
        obtain ⟨h1, h2⟩ := ih _ _ text ht' i hi
        exact ⟨Nat.le_trans (Nat.le_add_right _ _) h1, h2⟩

theorem wordOccsF_sound (pat : List Char) (text : List Char) :
    ∀ (fuel : Nat) (t : List Char) (pos : Nat),
      t = text.drop pos →
      ∀ i ∈ wordOccsF fuel text t pat pos,
        ciMatch pat (text.drop i) = true ∧ boundaryAt text i = true ∧
          boundaryAt text (i + pat.length) = true := by
  intro fuel
  induction fuel with
  | zero => intro t pos ht i hi; simp [wordOccsF] at hi
  | succ fuel ih =>
    intro t pos ht i hi
    cases t with
    | nil => simp [wordOccsF] at hi
    | cons c rest =>
      simp only [wordOccsF] at hi
      by_cases hm : (ciMatch pat (c :: rest) && boundaryAt text pos &&
          boundaryAt text (pos + pat.length)) = true
      · rw [if_pos hm] at hi
        rcases List.mem_cons.mp hi with hme | hme
        · subst hme
          have hm' := hm
          rw [Bool.and_eq_true, Bool.and_eq_true] at hm'
          obtain ⟨⟨hm1, hm2⟩, hm3⟩ := hm'
          exact ⟨by rw [← ht]; exact hm1, hm2, hm3⟩
        · have ht' : (c :: rest).drop pat.length = text.drop (pos + pat.length) := by
            rw [drop_pos_add, ← ht]
          exact ih _ _ ht' i hme
      · rw [if_neg hm] at hi
        have ht' : rest = text.drop (pos + 1) := by
          rw [drop_pos_add, ← ht]; rfl
        exact ih _ _ ht' i hi

theorem subOccs_sound {text pat : List Char} {i : Nat} (hi : i ∈ subOccs text pat) :
    ciMatch pat (text.drop i) = true := by
  unfold subOccs at hi
  by_cases hp : pat.isEmpty = true
  · rw [if_pos hp] at hi; simp at hi
  · rw [if_neg hp] at hi
    exact (subOccsF_sound pat text.length text 0 text (by simp) i hi).2

theorem wordOccs_sound {text pat : List Char} {i : Nat} (hi : i ∈ wordOccs text pat) :
    ciMatch pat (text.drop i) = true ∧ boundaryAt text i = true ∧
      boundaryAt text (i + pat.length) = true := by
  unfold wordOccs at hi
  by_cases hp : pat.isEmpty = true
  · rw [if_pos hp] at hi; simp at hi
  · rw [if_neg hp] at hi
    exact wordOccsF_sound pat text text.length text 0 (by simp) i hi

theorem fallback1_shape {text : List Char} {v t : String}
    (h : fallback1 text = some (v, t)) :
    t ∈ eps_terms ∧ ∃ i ∈ wordOccs text t.data,
      windowValue text (i + t.data.length) 100 = some v := by
  obtain ⟨term, hterm, hinner⟩ := findSome_exists _ _ _ h
  obtain ⟨i, hio, hw⟩ := findSome_exists _ _ _ hinner
  cases hwv : windowValue text (i + term.data.length) 100 with
  | none => rw [hwv] at hw; simp at hw
  | some v' =>
    rw [hwv] at hw
    simp only [Option.map_some', Option.some.injEq, Prod.mk.injEq] at hw
    obtain ⟨hv, ht⟩ := hw
    subst hv; subst ht
    exact ⟨hterm, i, hio, hwv⟩

theorem fallback2_shape {text : List Char} {v t : String}
    (h : fallback2 text = some (v, t)) :
    t ∈ fallback_terms ∧ ∃ i ∈ subOccs text t.data,
      windowValue text (i + t.data.length) 50 = some v := by
  obtain ⟨term, hterm, hinner⟩ := findSome_exists _ _ _ h
  obtain ⟨i, hio, hw⟩ := findSome_exists _ _ _ hinner
  cases hwv : windowValue text (i + term.data.length) 50 with
  | none => rw [hwv] at hw; simp at hw
  | some v' =>
    rw [hwv] at hw
    simp only [Option.map_some', Option.some.injEq, Prod.mk.injEq] at hw
    obtain ⟨hv, ht⟩ := hw
    subst hv; subst ht
    exact ⟨hterm, i, hio, hwv⟩

/-- C7 counterexample: fallback 2 accepts the occurrence of
`"per share"` inside `"per shareholder"` — a position that is not
followed by a word boundary — and extracts a value there, while the
whole-word variant the claim describes finds nothing on this document. -/
theorem fallback2_not_whole_word :
    fallback2 (concatStrs docSubstr).data = some ("1.23", "per share") ∧
    fallback2WholeWord (concatStrs docSubstr).data = none :=
  ⟨by decide, by decide⟩

/-- C7 (amended): fallback 1 matches catalog terms only as whole-word
occurrences (case-insensitive, word boundaries at both ends) and inspects
a 100-character trailing window; fallback 2 scans the broader "per share"
catalog as plain case-insensitive substring occurrences — not whole words
— with a 50-character window. -/
theorem fallback_scanning :
    (∀ (text : List Char) (v t : String), fallback1 text = some (v, t) →
       t ∈ eps_terms ∧ ∃ i, ciMatch t.data (text.drop i) = true ∧
         boundaryAt text i = true ∧ boundaryAt text (i + t.data.length) = true ∧
         windowValue text (i + t.data.length) 100 = some v) ∧
    (∀ (text : List Char) (v t : String), fallback2 text = some (v, t) →
       t ∈ fallback_terms ∧ ∃ i, ciMatch t.data (text.drop i) = true ∧
         windowValue text (i + t.data.length) 50 = some v) := by
  constructor
  · intro text v t h
    obtain ⟨hmem, i, hio, hwin⟩ := fallback1_shape h
    obtain ⟨h1, h2, h3⟩ := wordOccs_sound hio
    exact ⟨hmem, i, h1, h2, h3, hwin⟩
  · intro text v t h
    obtain ⟨hmem, i, hio, hwin⟩ := fallback2_shape h
    exact ⟨hmem, i, subOccs_sound hio, hwin⟩

/-- C7 witness: the characterization applied to the fallback-2 document. -/
theorem fallback_scanning_witness :
    ("per share" : String) ∈ fallback_terms ∧ ∃ i,
      ciMatch ("per share" : String).data ((concatStrs docSubstr).data.drop i) = true ∧
      windowValue (concatStrs docSubstr).data (i + ("per share" : String).data.length) 50 =
        some "1.23" :=
  fallback_scanning.2 (concatStrs docSubstr).data "1.23" "per share" (by decide)

theorem filterMap_if {α β : Type} (c : α → Bool) (f : α → Option β) :
    ∀ l : List α,
      l.filterMap (fun a => if c a then f a else none) = (l.filter c).filterMap f := by
  intro l
  induction l with
  | nil => rfl
  | cons a t ih =>
    by_cases h : c a = true <;>
      simp [List.filterMap_cons, List.filter_cons, h, ih]

theorem findTableFrom_sound :
    ∀ (l : List Tok) (off j : Nat), findTableFrom l off = some j →
      off ≤ j ∧ l.get? (j - off) = some (Tok.openTag "table") ∧
        ∀ k, off ≤ k → k < j → l.get? (k - off) ≠ some (Tok.openTag "table") := by
  intro l
  induction l with
  | nil => intro off j h; simp [findTableFrom] at h
  | cons x rest ih =>
    intro off j h
    cases x with
    | openTag n =>
      by_cases hn : n = "table"
      · subst hn
        rw [findTableFrom, if_pos rfl] at h
        obtain rfl : off = j := Option.some.injEq _ _ ▸ (by simpa using h)
        refine ⟨Nat.le_refl _, by simp, ?_⟩
        intro k hk1 hk2
        exact absurd (Nat.lt_of_le_of_lt hk1 hk2) (Nat.lt_irrefl _)
      · rw [findTableFrom, if_neg hn] at h
        obtain ⟨h1, h2, h3⟩ := ih (off + 1) j h
        refine ⟨Nat.le_trans (Nat.le_succ _) h1, ?_, ?_⟩
        · have hj : j - off = (j - (off + 1)) + 1 := by omega
          rw [hj]
          simpa using h2
        · intro k hk1 hk2
          rcases Nat.eq_or_lt_of_le hk1 with hke | hkl
          · rw [← hke, Nat.sub_self]
            simp only [List.get?_cons_zero, ne_eq, Option.some.injEq]
            intro hc
            exact hn (by injection hc)
          · have hk : k - off = (k - (off + 1)) + 1 := by omega
            rw [hk]
            simpa using h3 k hkl hk2
    | closeTag =>
      rw [show findTableFrom (Tok.closeTag :: rest) off = findTableFrom rest (off + 1) from rfl] at h
      obtain ⟨h1, h2, h3⟩ := ih (off + 1) j h
      refine ⟨Nat.le_trans (Nat.le_succ _) h1, ?_, ?_⟩
      · have hj : j - off = (j - (off + 1)) + 1 := by omega
        rw [hj]
        simpa using h2
      · intro k hk1 hk2
        rcases Nat.eq_or_lt_of_le hk1 with hke | hkl
        · rw [← hke, Nat.sub_self]
          simp
        · have hk : k - off = (k - (off + 1)) + 1 := by omega
          rw [hk]
          simpa using h3 k hkl hk2
    | str s =>
      rw [show findTableFrom (Tok.str s :: rest) off = findTableFrom rest (off + 1) from rfl] at h
      obtain ⟨h1, h2, h3⟩ := ih (off + 1) j h
      refine ⟨Nat.le_trans (Nat.le_succ _) h1, ?_, ?_⟩
      · have hj : j - off = (j - (off + 1)) + 1 := by omega
        rw [hj]
        simpa using h2
      · intro k hk1 hk2
        rcases Nat.eq_or_lt_of_le hk1 with hke | hkl
        · rw [← hke, Nat.sub_self]
          simp
        · have hk : k - off = (k - (off + 1)) + 1 := by omega
          rw [hk]
          simpa using h3 k hkl hk2

theorem findTableFrom_none :
    ∀ (l : List Tok) (off : Nat), findTableFrom l off = none →
      ∀ k, l.get? k ≠ some (Tok.openTag "table") := by
  intro l
  induction l with
  | nil => intro off h k; simp
  | cons x rest ih =>
    intro off h k
    cases x with
    | openTag n =>
      by_cases hn : n = "table"
      · subst hn; rw [findTableFrom, if_pos rfl] at h; exact absurd h (by simp)
      · rw [findTableFrom, if_neg hn] at h
        cases k with
        | zero =>
          simp only [List.get?_cons_zero, ne_eq, Option.some.injEq]
          intro hc
          exact hn (by injection hc)
        | succ k => simpa using ih (off + 1) h k
    | closeTag =>
      rw [show findTableFrom (Tok.closeTag :: rest) off = findTableFrom rest (off + 1) from rfl] at h
      cases k with
      | zero => simp
      | succ k => simpa using ih (off + 1) h k
    | str s =>
      rw [show findTableFrom (Tok.str s :: rest) off = findTableFrom rest (off + 1) from rfl] at h
      cases k with
      | zero => simp
      | succ k => simpa using ih (off + 1) h k

theorem findTableAfter_nearest {doc : List Tok} {i j : Nat}
    (h : findTableAfter doc i = some j) :
    i < j ∧ doc.get? j = some (Tok.openTag "table") ∧
      ∀ k, i < k → k < j → doc.get? k ≠ some (Tok.openTag "table") := by
  unfold findTableAfter at h
  cases hf : findTableFrom (doc.drop (i + 1)) 0 with
  | none => rw [hf] at h; simp at h
  | some j0 =>
    rw [hf] at h
    simp only [Option.map_some', Option.some.injEq] at h
    subst h
    obtain ⟨_, h2, h3⟩ := findTableFrom_sound _ 0 j0 hf
    refine ⟨by omega, ?_, ?_⟩
    · rw [Nat.sub_zero] at h2
      rw [← List.get?_drop]
      exact h2
    · intro k hk1 hk2
      have hk0 : k = i + 1 + (k - (i + 1)) := by omega
      rw [hk0, ← List.get?_drop]
      have := h3 (k - (i + 1)) (Nat.zero_le _) (by omega)
      rw [Nat.sub_zero] at this
      exact this

theorem findTableAfter_none {doc : List Tok} {i : Nat}
    (h : findTableAfter doc i = none) :
    ∀ k, i < k → doc.get? k ≠ some (Tok.openTag "table") := by
  unfold findTableAfter at h
  cases hf : findTableFrom (doc.drop (i + 1)) 0 with
  | some j0 => rw [hf] at h; simp at h
  | none =>
    intro k hk
    have hk0 : k = i + 1 + (k - (i + 1)) := by omega
    rw [hk0, ← List.get?_drop]
    exact findTableFrom_none _ 0 hf (k - (i + 1))

/-- C9 counterexample: the statement-header phrase sits in a `span` tag
followed by a table; the source's locator (restricted to `p`, `b`,
`strong`, `div` tags) produces no candidate tables, while the claim's
"every tag node" reading locates the table at position 3. -/
theorem table_locator_span_cex :
    target_tables docSpan = [] ∧ target_tables_all_tags docSpan = [3] ∧
    containsStr (lowerStr (tagText docSpan 0)) "consolidated statements of operations" = true :=
  ⟨by decide, by decide, by decide⟩

/-- C9 (amended): the locator considers exactly the tag nodes named `p`,
`b`, `strong` or `div` whose lower-cased text contains a statement-header
phrase; for each such node it adds the nearest following `table` node in
document order (when one exists), and a `some` answer of the
nearest-table search is indeed the closest following table position. -/
theorem table_locator_spec (doc : List Tok) (i j : Nat) :
    (findTableAfter doc i = some j →
       i < j ∧ doc.get? j = some (Tok.openTag "table") ∧
         ∀ k, i < k → k < j → doc.get? k ≠ some (Tok.openTag "table")) ∧
    (findTableAfter doc i = none →
       ∀ k, i < k → doc.get? k ≠ some (Tok.openTag "table")) ∧
    (target_tables doc =
       table_headers.flatMap (fun ph =>
         ((tagPositions doc).filter (fun p =>
            header_tag_names.contains p.2 &&
              containsStr (lowerStr (tagText doc p.1)) ph)).filterMap
           (fun p => findTableAfter doc p.1))) := by
  refine ⟨fun h => findTableAfter_nearest h, fun h => findTableAfter_none h, ?_⟩
  unfold target_tables
  congr 1
  funext ph
  exact filterMap_if _ _ (tagPositions doc)

/-- C9 witness: on the span-header document the nearest-table search finds
the table at position 3 starting from the span at position 0. -/
theorem table_locator_spec_witness :
    0 < 3 ∧ docSpan.get? 3 = some (Tok.openTag "table") :=
  ⟨((table_locator_spec docSpan 0 3).1 (by decide)).1,
   ((table_locator_spec docSpan 0 3).1 (by decide)).2.1⟩

theorem parseExpPart_den_pos {num : Int} {den : Nat} {l3 : List Char} {f : Frac}
    (h : parseExpPart num den l3 = some f) (hden : 0 < den) : 0 < f.den := by
  simp only [parseExpPart] at h
  repeat' split at h
  all_goals
    first
      | exact Option.noConfusion h
      | (injection h with h; subst h;
         exact Nat.mul_pos hden (pow_pos (by norm_num) _))
      | (injection h with h; subst h; exact hden)

theorem parseFloatChars_den_pos {l : List Char} {f : Frac}
    (h : parseFloatChars l = some f) : 0 < f.den := by
  simp only [parseFloatChars] at h
  repeat' split at h
  all_goals
    first
      | exact Option.noConfusion h
      | exact parseExpPart_den_pos h (pow_pos (by norm_num) _)

theorem pyFloat_den_pos {l : List Char} {f : Frac} (h : pyFloat l = some f) : 0 < f.den := by
  unfold pyFloat at h
  exact parseFloatChars_den_pos h

theorem inRange25_iff {f : Frac} (hd : 0 < f.den) :
    inRange25 f = true ↔ (-25 ≤ fracVal f ∧ fracVal f ≤ 25) := by
  have hdq : (0 : ℚ) < (f.den : ℚ) := by exact_mod_cast hd
  unfold inRange25 fracVal
  rw [Bool.and_eq_true, decide_eq_true_eq, decide_eq_true_eq]
  constructor
  · rintro ⟨h1, h2⟩
    constructor
    · rw [le_div_iff hdq]
      exact_mod_cast h1
    · rw [div_le_iff hdq]
      exact_mod_cast h2
  · rintro ⟨h1, h2⟩
    rw [le_div_iff hdq] at h1
    rw [div_le_iff hdq] at h2
    exact ⟨by exact_mod_cast h1, by exact_mod_cast h2⟩

theorem takeWhile_all_true {α : Type} (p : α → Bool) :
    ∀ l : List α, (∀ c ∈ l, p c = true) → l.takeWhile p = l := by
  intro l
  induction l with
  | nil => intro _; rfl
  | cons a t ih =>
    intro h
    rw [List.takeWhile_cons, if_pos (h a (List.mem_cons_self a t))]
    rw [ih (fun c hc => h c (List.mem_cons_of_mem a hc))]

theorem dropWhile_all_true {α : Type} (p : α → Bool) :
    ∀ l : List α, (∀ c ∈ l, p c = true) → l.dropWhile p = [] := by
  intro l
  induction l with
  | nil => intro _; rfl
  | cons a t ih =>
    intro h
    rw [List.dropWhile_cons, if_pos (h a (List.mem_cons_self a t))]
    exact ih (fun c hc => h c (List.mem_cons_of_mem a hc))

theorem dropWhile_all_false {α : Type} (p : α → Bool) :
    ∀ l : List α, (∀ c ∈ l, p c = false) → l.dropWhile p = l := by
  intro l
  induction l with
  | nil => intro _; rfl
  | cons a t ih =>
    intro h
    rw [List.dropWhile_cons, if_neg]
    rw [h a (List.mem_cons_self a t)]
    simp

theorem filter_all_true {α : Type} (p : α → Bool) :
    ∀ l : List α, (∀ c ∈ l, p c = true) → l.filter p = l := by
  intro l
  induction l with
  | nil => intro _; rfl
  | cons a t ih =>
    intro h
    rw [List.filter_cons, if_pos (h a (List.mem_cons_self a t))]
    rw [ih (fun c hc => h c (List.mem_cons_of_mem a hc))]

theorem trimChars_no_space {l : List Char} (h : ∀ c ∈ l, isPySpace c = false) :
    trimChars l = l := by
  unfold trimChars
  rw [dropWhile_all_false _ l h]
  rw [dropWhile_all_false _ l.reverse (fun c hc => h c (List.mem_reverse.mp hc))]
  exact List.reverse_reverse l

theorem digit_not_space {c : Char} (h : Char.isDigit c = true) : isPySpace c = false := by
  by_cases hsp : isPySpace c = true
  · exfalso
    simp only [isPySpace, Bool.or_eq_true, beq_iff_eq] at hsp
    rcases hsp with ((((rfl | rfl) | rfl) | rfl) | rfl) | rfl <;> exact absurd h (by decide)
  · rw [Bool.not_eq_true] at hsp
    exact hsp

theorem digitChar_isDigit (d : Nat) : (digitChar d).isDigit = true := by
  unfold digitChar
  split <;> decide

theorem digitChar_toNat (d : Nat) (hd : d < 10) : (digitChar d).toNat - 48 = d := by
  interval_cases d <;> rfl

theorem natDigitsF_step (fuel m : Nat) (acc : List Char) (hm : m ≠ 0) :
    natDigitsF (fuel + 1) m acc = natDigitsF fuel (m / 10) (digitChar (m % 10) :: acc) := by
  simp [natDigitsF, hm]

theorem natDigitsF_digits :
    ∀ (fuel m : Nat) (acc : List Char), (∀ c ∈ acc, Char.isDigit c = true) →
      ∀ c ∈ natDigitsF fuel m acc, Char.isDigit c = true := by
  intro fuel
  induction fuel with
  | zero => intro m acc hacc c hc; exact hacc c hc
  | succ fuel ih =>
    intro m acc hacc c hc
    by_cases hm : m = 0
    · subst hm
      simp only [natDigitsF, if_pos rfl] at hc
      exact hacc c hc
    · rw [natDigitsF_step fuel m acc hm] at hc
      refine ih (m / 10) _ ?_ c hc
      intro d hd
      rcases List.mem_cons.mp hd with rfl | hd'
      · exact digitChar_isDigit _
      · exact hacc d hd'

theorem natDigitsF_pre :
    ∀ (fuel m : Nat) (acc : List Char), ∃ pre, natDigitsF fuel m acc = pre ++ acc := by
  intro fuel
  induction fuel with
  | zero => intro m acc; exact ⟨[], rfl⟩
  | succ fuel ih =>
    intro m acc
    by_cases hm : m = 0
    · subst hm
      exact ⟨[], by simp [natDigitsF]⟩
    · obtain ⟨pre, hpre⟩ := ih (m / 10) (digitChar (m % 10) :: acc)
      refine ⟨pre ++ [digitChar (m % 10)], ?_⟩
      rw [natDigitsF_step fuel m acc hm, hpre]
      simp

theorem natDigitsF_ne_nil (fuel m : Nat) (acc : List Char) (hm : m ≠ 0) (hf : 1 ≤ fuel) :
    natDigitsF fuel m acc ≠ [] := by
  obtain ⟨fuel, rfl⟩ : ∃ k, fuel = k + 1 := ⟨fuel - 1, by omega⟩
  rw [natDigitsF_step fuel m acc hm]
  obtain ⟨pre, hpre⟩ := natDigitsF_pre fuel (m / 10) (digitChar (m % 10) :: acc)
  rw [hpre]
  simp

theorem digitsToNat_natDigitsF :
    ∀ (fuel m : Nat) (acc : List Char), m ≤ fuel →
      digitsToNat (natDigitsF fuel m acc) 0 = digitsToNat acc m := by
  intro fuel
  induction fuel with
  | zero =>
    intro m acc hm
    interval_cases m
    rfl
  | succ fuel ih =>
    intro m acc hm
    by_cases hm0 : m = 0
    · subst hm0
      simp [natDigitsF]
    · rw [natDigitsF_step fuel m acc hm0]
      rw [ih (m / 10) _ (by omega)]
      show digitsToNat acc ((m / 10) * 10 + ((digitChar (m % 10)).toNat - 48)) = digitsToNat acc m
      rw [digitChar_toNat (m % 10) (Nat.mod_lt _ (by norm_num))]
      congr 1
      omega

theorem parseFloat_digits (l : List Char) (hne : l ≠ [])
    (hd : ∀ c ∈ l, Char.isDigit c = true) :
    parseFloatChars l = some ⟨(digitsToNat l 0 : Int), 1⟩ := by
  obtain ⟨c, t, rfl⟩ := List.exists_cons_of_ne_nil hne
  have hc : Char.isDigit c = true := hd c (List.mem_cons_self c t)
  have hcp : c ≠ '+' := fun h => absurd (h ▸ hc) (by decide)
  have hcm : c ≠ '-' := fun h => absurd (h ▸ hc) (by decide)
  have hs : parseSign (c :: t) = (false, c :: t) := by
    simp [parseSign, hcp, hcm]
  have hip : (c :: t).takeWhile Char.isDigit = c :: t := takeWhile_all_true _ _ hd
  have hl2 : (c :: t).dropWhile Char.isDigit = [] := dropWhile_all_true _ _ hd
  have hdot : ((([] : List Char).head?) == some '.') = false := rfl
  simp [parseFloatChars, hs, hip, hl2, hdot, parseExpPart, digitsToNat]

theorem extract_none_nonparen_parse_fail (s : String)
    (hc : (startsParen (trimChars s.data) && endsParen (trimChars s.data)) = false)
    (hp : pyFloat (((trimChars s.data).filter (fun c => c != '$')).filter
            (fun c => c != ',')) = none) :
    extract_eps_value s = none := by
  simp only [extract_eps_value, hc, Bool.false_eq_true, if_false, hp]

theorem extract_none_paren_parse_fail (s : String)
    (hc : (startsParen (trimChars s.data) && endsParen (trimChars s.data)) = true)
    (hp : pyFloat ((trimChars s.data).drop 1).dropLast = none) :
    extract_eps_value s = none := by
  simp only [extract_eps_value, hc, if_true, hp]

theorem extract_none_nonparen_range (s : String) (f : Frac)
    (hc : (startsParen (trimChars s.data) && endsParen (trimChars s.data)) = false)
    (hp : pyFloat (((trimChars s.data).filter (fun c => c != '$')).filter
            (fun c => c != ',')) = some f)
    (hr : fracVal f < -25 ∨ 25 < fracVal f) :
    extract_eps_value s = none := by
  have hir : inRange25 f = false := by
    rw [← Bool.not_eq_true]
    intro hirt
    obtain ⟨h1, h2⟩ := (inRange25_iff (pyFloat_den_pos hp)).mp hirt
    rcases hr with h | h <;> linarith
  simp only [extract_eps_value, hc, Bool.false_eq_true, if_false, hp, hir]

theorem extract_none_paren_range (s : String) (f : Frac)
    (hc : (startsParen (trimChars s.data) && endsParen (trimChars s.data)) = true)
    (hp : pyFloat ((trimChars s.data).drop 1).dropLast = some f)
    (hr : fracVal ⟨-f.num, f.den⟩ < -25 ∨ 25 < fracVal ⟨-f.num, f.den⟩) :
    extract_eps_value s = none := by
  have hden : 0 < f.den := pyFloat_den_pos hp
  have hir : inRange25 ⟨-f.num, f.den⟩ = false := by
    rw [← Bool.not_eq_true]
    intro hirt
    obtain ⟨h1, h2⟩ :=
      (inRange25_iff (show 0 < (Frac.mk (-f.num) f.den).den from hden)).mp hirt
    rcases hr with h | h <;> linarith
  simp only [extract_eps_value, hc, if_true, hp, hir, Bool.false_eq_true, if_false]

theorem extract_some_nonparen (s : String) (f : Frac)
    (hc : (startsParen (trimChars s.data) && endsParen (trimChars s.data)) = false)
    (hp : pyFloat (((trimChars s.data).filter (fun c => c != '$')).filter
            (fun c => c != ',')) = some f)
    (h1 : -25 ≤ fracVal f) (h2 : fracVal f ≤ 25) :
    extract_eps_value s = some (format2 f) := by
  have hir : inRange25 f = true := (inRange25_iff (pyFloat_den_pos hp)).mpr ⟨h1, h2⟩
  simp only [extract_eps_value, hc, Bool.false_eq_true, if_false, hp, hir, if_true]

theorem extract_some_paren (s : String) (f : Frac)
    (hc : (startsParen (trimChars s.data) && endsParen (trimChars s.data)) = true)
    (hp : pyFloat ((trimChars s.data).drop 1).dropLast = some f)
    (h1 : -25 ≤ fracVal ⟨-f.num, f.den⟩) (h2 : fracVal ⟨-f.num, f.den⟩ ≤ 25) :
    extract_eps_value s = some (format2 ⟨-f.num, f.den⟩) := by
  have hden : 0 < f.den := pyFloat_den_pos hp
  have hir : inRange25 ⟨-f.num, f.den⟩ = true :=
    (inRange25_iff (show 0 < (Frac.mk (-f.num) f.den).den from hden)).mpr ⟨h1, h2⟩
  simp only [extract_eps_value, hc, if_true, hp, hir]

theorem extract_year_none (n : Nat) (h1 : 1900 ≤ n) (h2 : n ≤ 2100) :
    extract_eps_value (natRepr n) = none := by
  have hne : n ≠ 0 := by omega
  have hdata : (natRepr n).data = natDigitsF n n [] := by
    simp [natRepr, hne]
  have hdig : ∀ c ∈ (natRepr n).data, Char.isDigit c = true := by
    rw [hdata]; exact natDigitsF_digits n n [] (by simp)
  have hnil : (natRepr n).data ≠ [] := by
    rw [hdata]; exact natDigitsF_ne_nil n n [] hne (by omega)
  have htrim : trimChars (natRepr n).data = (natRepr n).data :=
    trimChars_no_space (fun c hc => digit_not_space (hdig c hc))
  have hsp : startsParen (trimChars (natRepr n).data) = false := by
    rw [htrim]
    obtain ⟨c, t, hct⟩ := List.exists_cons_of_ne_nil hnil
    rw [hct]
    have hcdig : Char.isDigit c = true := hdig c (by rw [hct]; exact List.mem_cons_self c t)
    have hcne : c ≠ '(' := fun h => absurd (h ▸ hcdig) (by decide)
    simp [startsParen, hcne]
  have hcond : (startsParen (trimChars (natRepr n).data) &&
      endsParen (trimChars (natRepr n).data)) = false := by
    rw [hsp]; rfl
  have hfilters : (((trimChars (natRepr n).data).filter (fun c => c != '$')).filter
      (fun c => c != ',')) = (natRepr n).data := by
    rw [htrim]
    have hf1 : (natRepr n).data.filter (fun c => c != '$') = (natRepr n).data :=
      filter_all_true _ _ (fun c hc =>
        bne_iff_ne.mpr (fun h => absurd (h ▸ hdig c hc) (by decide)))
    rw [hf1]
    exact filter_all_true _ _ (fun c hc =>
      bne_iff_ne.mpr (fun h => absurd (h ▸ hdig c hc) (by decide)))
  have hpf : pyFloat (((trimChars (natRepr n).data).filter (fun c => c != '$')).filter
      (fun c => c != ',')) = some ⟨(n : Int), 1⟩ := by
    rw [hfilters]
    unfold pyFloat
    rw [trimChars_no_space (fun c hc => digit_not_space (hdig c hc))]
    rw [parseFloat_digits _ hnil hdig]
    rw [hdata, digitsToNat_natDigitsF n n [] (Nat.le_refl n)]
    rfl
  refine extract_none_nonparen_range (natRepr n) ⟨(n : Int), 1⟩ hcond hpf (Or.inr ?_)
  unfold fracVal
  push_cast
  rw [div_one]
  exact_mod_cast (by omega : 25 < n)

/-- C1: a token that, after trimming (and `$`/`,` stripping in the
non-parenthesized branch), parses as a float with value in the inclusive
range `[-25, 25]` is returned formatted to exactly two fractional digits;
a parenthesized token's parsed interior is negated, so `"(1.23)"` yields
`"-1.23"`. -/
theorem extract_in_range (s : String) (f : Frac) :
    ((startsParen (trimChars s.data) && endsParen (trimChars s.data)) = false →
       pyFloat (((trimChars s.data).filter (fun c => c != '$')).filter
         (fun c => c != ',')) = some f →
       -25 ≤ fracVal f → fracVal f ≤ 25 →
       extract_eps_value s = some (format2 f)) ∧
    ((startsParen (trimChars s.data) && endsParen (trimChars s.data)) = true →
       pyFloat ((trimChars s.data).drop 1).dropLast = some f →
       -25 ≤ fracVal ⟨-f.num, f.den⟩ → fracVal ⟨-f.num, f.den⟩ ≤ 25 →
       extract_eps_value s = some (format2 ⟨-f.num, f.den⟩)) ∧
    extract_eps_value "(1.23)" = some "-1.23" :=
  ⟨extract_some_nonparen s f, extract_some_paren s f, by decide⟩

/-- C1 witness: `"2.5"` parses to `25/10` and is returned as the
two-decimal rendering of that value. -/
theorem extract_in_range_witness :
    extract_eps_value "2.5" = some (format2 ⟨25, 10⟩) :=
  (extract_in_range "2.5" ⟨25, 10⟩).1 (by decide) (by decide)
    (by norm_num [fracVal]) (by norm_num [fracVal])

/-- C2: extraction is absent for every token whose branch-determined parse
fails, for every parsed value of magnitude beyond 25, and in particular
for every bare 4-digit year in `[1900, 2100]` (rendered in decimal), such
as `"2020"`. -/
theorem extract_rejects (s : String) (f : Frac) (n : Nat) :
    ((startsParen (trimChars s.data) && endsParen (trimChars s.data)) = false →
       pyFloat (((trimChars s.data).filter (fun c => c != '$')).filter
         (fun c => c != ',')) = none →
       extract_eps_value s = none) ∧
    ((startsParen (trimChars s.data) && endsParen (trimChars s.data)) = true →
       pyFloat ((trimChars s.data).drop 1).dropLast = none →
       extract_eps_value s = none) ∧
    ((startsParen (trimChars s.data) && endsParen (trimChars s.data)) = false →
       pyFloat (((trimChars s.data).filter (fun c => c != '$')).filter
         (fun c => c != ',')) = some f →
       (fracVal f < -25 ∨ 25 < fracVal f) →
       extract_eps_value s = none) ∧
    ((startsParen (trimChars s.data) && endsParen (trimChars s.data)) = true →
       pyFloat ((trimChars s.data).drop 1).dropLast = some f →
       (fracVal ⟨-f.num, f.den⟩ < -25 ∨ 25 < fracVal ⟨-f.num, f.den⟩) →
       extract_eps_value s = none) ∧
    (1900 ≤ n → n ≤ 2100 → extract_eps_value (natRepr n) = none) ∧
    extract_eps_value "2020" = none :=
  ⟨extract_none_nonparen_parse_fail s, extract_none_paren_parse_fail s,
   extract_none_nonparen_range s f, extract_none_paren_range s f,
   extract_year_none n, by decide⟩

/-- C2 witness: the year rejection applied at 2020. -/
theorem extract_rejects_witness :
    extract_eps_value (natRepr 2020) = none :=
  (extract_rejects "0" ⟨0, 1⟩ 2020).2.2.2.2.1 (by norm_num) (by norm_num)

/-- C10: currency and comma stripping happens only in the
non-parenthesized branch: a parenthesized token succeeds only when its
interior parses directly as a float, so `"($1.23)"` and `"(1,234)"` are
absent although their unparenthesized forms parse. -/
theorem paren_no_symbol_stripping (s : String) :
    ((startsParen (trimChars s.data) && endsParen (trimChars s.data)) = true →
       pyFloat ((trimChars s.data).drop 1).dropLast = none →
       extract_eps_value s = none) ∧
    extract_eps_value "($1.23)" = none ∧
    extract_eps_value "(1,234)" = none ∧
    pyFloat ("$1.23").data = none ∧
    pyFloat ("1,234").data = none ∧
    extract_eps_value "$1.23" = some "1.23" ∧
    pyFloat ("1234").data = some ⟨1234, 1⟩ :=
  ⟨extract_none_paren_parse_fail s, by decide, by decide, by decide, by decide,
   by decide, by decide⟩

/-- C10 witness: the parenthesized-branch rejection applied to
`"($1.23)"`, whose interior `"$1.23"` does not parse. -/
theorem paren_no_symbol_stripping_witness :
    extract_eps_value "($1.23)" = none :=
  (paren_no_symbol_stripping "($1.23)").1 (by decide) (by decide)

theorem takeWhile_digits_dot (ds tail : List Char)
    (h : ∀ c ∈ ds, Char.isDigit c = true) :
    (ds ++ '.' :: tail).takeWhile Char.isDigit = ds := by
  induction ds with
  | nil =>
    have hdot : Char.isDigit '.' = false := by decide
    simp [List.takeWhile_cons, hdot]
  | cons c cs ih =>
    rw [List.cons_append, List.takeWhile_cons,
      if_pos (h c (List.mem_cons_self c cs))]
    rw [ih (fun x hx => h x (List.mem_cons_of_mem c hx))]

theorem dropWhile_digits_dot (ds tail : List Char)
    (h : ∀ c ∈ ds, Char.isDigit c = true) :
    (ds ++ '.' :: tail).dropWhile Char.isDigit = '.' :: tail := by
  induction ds with
  | nil =>
    have hdot : Char.isDigit '.' = false := by decide
    simp [List.dropWhile_cons, hdot]
  | cons c cs ih =>
    rw [List.cons_append, List.dropWhile_cons,
      if_pos (h c (List.mem_cons_self c cs))]
    exact ih (fun x hx => h x (List.mem_cons_of_mem c hx))

theorem twoDecCore_app (ds : List Char) (a b : Char) (hds : ds ≠ [])
    (h : ∀ c ∈ ds, Char.isDigit c = true)
    (ha : a.isDigit = true) (hb : b.isDigit = true) :
    twoDecCore (ds ++ '.' :: [a, b]) = true := by
  unfold twoDecCore
  rw [takeWhile_digits_dot ds [a, b] h, dropWhile_digits_dot ds [a, b] h]
  simp [hds, ha, hb]

theorem natRepr_facts (k : Nat) :
    (natRepr k).data ≠ [] ∧ ∀ c ∈ (natRepr k).data, Char.isDigit c = true := by
  by_cases hk : k = 0
  · subst hk
    refine ⟨by simp [natRepr], ?_⟩
    intro c hc
    simp only [natRepr, if_pos rfl] at hc
    have : c = '0' := by simpa using hc
    subst this
    decide
  · have hdata : (natRepr k).data = natDigitsF k k [] := by simp [natRepr, hk]
    rw [hdata]
    exact ⟨natDigitsF_ne_nil k k [] hk (by omega), natDigitsF_digits k k [] (by simp)⟩

theorem isTwoDec_format2 (f : Frac) : isTwoDec (format2 f) = true := by
  obtain ⟨hne, hdig⟩ := natRepr_facts (rheNat (f.num.natAbs * 100) f.den / 100)
  have hdata : (format2 f).data =
      (if f.num < 0 then ['-'] else []) ++
        ((natRepr (rheNat (f.num.natAbs * 100) f.den / 100)).data ++
          '.' :: [digitChar (rheNat (f.num.natAbs * 100) f.den / 10 % 10),
                  digitChar (rheNat (f.num.natAbs * 100) f.den % 10)]) := by
    unfold format2
    rw [String.data_append, String.data_append, String.data_append]
    by_cases hneg : f.num < 0 <;> simp [hneg]
  by_cases hneg : f.num < 0
  · rw [if_pos hneg] at hdata
    have hdash : startsDash (format2 f) = true := by
      unfold startsDash
      rw [hdata]
      rfl
    unfold isTwoDec
    rw [hdash, if_pos rfl, hdata]
    show twoDecCore _ = true
    exact twoDecCore_app _ _ _ hne hdig (digitChar_isDigit _) (digitChar_isDigit _)
  · rw [if_neg hneg, List.nil_append] at hdata
    have hdash : startsDash (format2 f) = false := by
      unfold startsDash
      rw [hdata]
      obtain ⟨c, t, hct⟩ := List.exists_cons_of_ne_nil hne
      rw [hct, List.cons_append]
      have hcd : Char.isDigit c = true := hdig c (by rw [hct]; exact List.mem_cons_self c t)
      have : c ≠ '-' := fun h => absurd (h ▸ hcd) (by decide)
      simp [this]
    unfold isTwoDec
    rw [hdash, if_neg (by simp), hdata]
    exact twoDecCore_app _ _ _ hne hdig (digitChar_isDigit _) (digitChar_isDigit _)

theorem isTwoDec_dash {v : String} (hv : isTwoDec v = true) (hd : startsDash v = false) :
    isTwoDec ("-" ++ v) = true := by
  unfold isTwoDec at hv ⊢
  rw [if_neg (by rw [hd]; simp)] at hv
  have hdata : ("-" ++ v).data = '-' :: v.data := by
    rw [String.data_append]
    rfl
  have hdash : startsDash ("-" ++ v) = true := by
    unfold startsDash
    rw [hdata]
    rfl
  rw [hdash, if_pos rfl, hdata]
  exact hv

theorem mkCandidate_isTwoDec (rt term v : String) (hv : isTwoDec v = true) :
    isTwoDec (mkCandidate rt term v).value = true := by
  unfold mkCandidate
  simp only []
  split
  · rename_i hcond
    rw [Bool.and_eq_true] at hcond
    have hd : startsDash v = false := by
      have := hcond.2
      rwa [Bool.not_eq_true'] at this
    exact isTwoDec_dash hv hd
  · exact hv

theorem mkCandidate_term (rt term v : String) : (mkCandidate rt term v).term = term := rfl

theorem extract_isTwoDec {s v : String} (h : extract_eps_value s = some v) :
    isTwoDec v = true := by
  simp only [extract_eps_value] at h
  repeat' split at h
  all_goals
    first
      | exact Option.noConfusion h
      | (injection h with h; subst h; exact isTwoDec_format2 _)

theorem cellValue_isTwoDec {cell : List Tok} {v : String}
    (h : cellValue cell = some v) : isTwoDec v = true :=
  extract_isTwoDec h

theorem lookahead4_shape :
    ∀ (rows : List (List Tok)) (term : String) (c : Candidate),
      lookahead4 rows term = some c → isTwoDec c.value = true ∧ c.term = term := by
  intro rows
  induction rows with
  | nil => intro term c h; exact Option.noConfusion h
  | cons r rs ih =>
    intro term c h
    simp only [lookahead4] at h
    cases hcell : (findCells r).findSome? cellValue with
    | some v =>
      rw [hcell] at h
      injection h with h
      subst h
      obtain ⟨cell, _, hcv⟩ := findSome_exists _ _ _ hcell
      exact ⟨mkCandidate_isTwoDec _ _ _ (cellValue_isTwoDec hcv), rfl⟩
    | none =>
      rw [hcell] at h
      exact ih term c h

theorem scanRows_shape :
    ∀ (rows : List (List Tok)) (c : Candidate), c ∈ scanRows rows →
      isTwoDec c.value = true ∧ c.term ∈ eps_terms := by
  intro rows
  induction rows with
  | nil => intro c hc; simp [scanRows] at hc
  | cons row rest ih =>
    intro c hc
    rw [scanRows, List.mem_append] at hc
    rcases hc with hc | hc
    · cases hterm : eps_terms.find? (fun t => containsStr (rowText row) t) with
      | none => simp only [hterm] at hc; simp at hc
      | some term =>
        simp only [hterm] at hc
        have htm : term ∈ eps_terms := List.mem_of_find?_eq_some hterm
        cases hcell : (findCells row).findSome? cellValue with
        | some v =>
          simp only [hcell] at hc
          have hceq : c = mkCandidate (rowText row) term v := by simpa using hc
          subst hceq
          obtain ⟨cell, _, hcv⟩ := findSome_exists _ _ _ hcell
          exact ⟨mkCandidate_isTwoDec _ _ _ (cellValue_isTwoDec hcv),
            by rw [mkCandidate_term]; exact htm⟩
        | none =>
          simp only [hcell] at hc
          cases hla : lookahead4 (rest.take 4) term with
          | none => simp only [hla] at hc; simp at hc
          | some c' =>
            simp only [hla] at hc
            have hceq : c = c' := by simpa using hc
            subst hceq
            obtain ⟨hv, hterm'⟩ := lookahead4_shape _ _ _ hla
            exact ⟨hv, hterm' ▸ htm⟩
    · exact ih c hc

theorem found_values_shape {doc : List Tok} {c : Candidate}
    (hc : c ∈ found_values doc) :
    isTwoDec c.value = true ∧ c.term ∈ eps_terms := by
  unfold found_values at hc
  rw [List.mem_flatMap] at hc
  obtain ⟨ti, _, hmem⟩ := hc
  exact scanRows_shape _ c hmem

theorem windowValue_isTwoDec {text : List Char} {e win : Nat} {v : String}
    (h : windowValue text e win = some v) : isTwoDec v = true := by
  unfold windowValue at h
  cases hs : searchNumber ((text.drop e).take win) with
  | none => rw [hs] at h; exact Option.noConfusion h
  | some m =>
    rw [hs] at h
    exact extract_isTwoDec h

theorem find_eps_core_cases (doc : List Tok) :
    find_eps_core doc = (none, none) ∨
    ∃ v t, find_eps_core doc = (some v, some t) ∧ isTwoDec v = true ∧
      (t ∈ eps_terms ∨ t ∈ fallback_terms) := by
  cases hrank : rank (found_values doc) with
  | some best =>
    right
    refine ⟨best.value, best.term, ?_, ?_⟩
    · simp only [find_eps_core, hrank]
    · obtain ⟨hv, ht⟩ := found_values_shape (rank_mem hrank)
      exact ⟨hv, Or.inl ht⟩
  | none =>
    cases hf1 : fallback1 (concatStrs doc).data with
    | some r =>
      right
      obtain ⟨v, t⟩ := r
      obtain ⟨ht, i, _, hw⟩ := fallback1_shape hf1
      exact ⟨v, t, by simp only [find_eps_core, hrank, hf1],
        windowValue_isTwoDec hw, Or.inl ht⟩
    | none =>
      cases hf2 : fallback2 (concatStrs doc).data with
      | some r =>
        right
        obtain ⟨v, t⟩ := r
        obtain ⟨ht, i, _, hw⟩ := fallback2_shape hf2
        exact ⟨v, t, by simp only [find_eps_core, hrank, hf1, hf2],
          windowValue_isTwoDec hw, Or.inr ht⟩
      | none =>
        left
        simp only [find_eps_core, hrank, hf1, hf2]

/-- C8: every `.html` entry of a batch yields exactly one output record;
the `EPS` field is `"NONE"` or a decimal string with exactly two
fractional digits (possibly `'-'`-prefixed); the `EPS_Term` field is a
catalog term or `"NONE"`; a file whose read or parse fails (the caught
exception path, modelled as an absent document) contributes the
`NONE`/`NONE` record and the rest of the batch is still processed. -/
theorem batch_records (files : List (String × Option (List Tok))) :
    (process_directory files).length =
      (files.filter (fun f => endsWithStr f.1 ".html")).length ∧
    (∀ r ∈ process_directory files,
       (r.EPS = "NONE" ∨ isTwoDec r.EPS = true) ∧
       (r.EPS_Term = "NONE" ∨ r.EPS_Term ∈ eps_terms ∨ r.EPS_Term ∈ fallback_terms)) ∧
    find_eps_in_file none = (none, none) := by
  refine ⟨?_, ?_, rfl⟩
  · unfold process_directory
    exact List.length_map _ _
  · intro r hr
    unfold process_directory at hr
    rw [List.mem_map] at hr
    obtain ⟨f, _, hrf⟩ := hr
    subst hrf
    cases hf : f.2 with
    | none =>
      exact ⟨Or.inl (by simp [find_eps_in_file, hf]),
             Or.inl (by simp [find_eps_in_file, hf])⟩
    | some doc =>
      rcases find_eps_core_cases doc with hcore | ⟨v, t, hcore, hv, ht⟩
      · exact ⟨Or.inl (by simp [find_eps_in_file, hf, hcore]),
               Or.inl (by simp [find_eps_in_file, hf, hcore])⟩
      · constructor
        · right
          simpa [find_eps_in_file, hf, hcore] using hv
        · right
          simpa [find_eps_in_file, hf, hcore] using ht

/-- C8 witness: a one-file batch produces a record whose fields satisfy
the shape constraints. -/
theorem batch_records_witness :
    (({ filename := "a.html", EPS := "0.45", EPS_Term := "eps" } : OutRecord).EPS = "NONE" ∨
       isTwoDec ({ filename := "a.html", EPS := "0.45", EPS_Term := "eps" } : OutRecord).EPS =
         true) ∧
    (({ filename := "a.html", EPS := "0.45", EPS_Term := "eps" } : OutRecord).EPS_Term =
         "NONE" ∨
       ({ filename := "a.html", EPS := "0.45", EPS_Term := "eps" } : OutRecord).EPS_Term ∈
         eps_terms ∨
       ({ filename := "a.html", EPS := "0.45", EPS_Term := "eps" } : OutRecord).EPS_Term ∈
         fallback_terms) :=
  (batch_records [("a.html", some docText)]).2.1
    { filename := "a.html", EPS := "0.45", EPS_Term := "eps" } (by decide)
